import Mathlib

/-!
Verification of the zip-renderer core of `mfr/extensions/zip/render.py`:
the entry sanitizer (`sanitize_obj_list`) and the tree builder
(`obj_list_to_tree` with its helpers `update_node_with_attributes`,
`icon_exists`, `find_node_among_siblings`).

The embedding is shallow: each Python function becomes a Lean function on
the same data.  The renderer's external collaborators (the size formatter
`sizeof_fmt`, the asset-file probe behind `os.path.isfile`, the archive
name and the asset base URL) are parameters collected in `RenderCtx`.
Python exceptions that the tree builder can raise (`IndexError` from
indexing an empty path, `AssertionError` from `assert is_folder`) are
modelled with `Except BuildError`.
-/

namespace ZipRender

/-- One record of `ZipFile.filelist` as the renderer reads it: `filename` is
the forward-slash separated path (folder paths end in `/`), `date_time` the
`(year, month, day, hour, minute, second)` tuple, `file_size` the byte count. -/
structure ArchiveEntry where
  filename : String
  date_time : Nat × Nat × Nat × Nat × Nat × Nat
  file_size : Nat
deriving DecidableEq

/-- The `data` dictionary attached to a node by `update_node_with_attributes`. -/
structure NodeData where
  date : String
  size : String
deriving DecidableEq

/-- One node dictionary of the object tree.  A freshly created node carries
only `text` and `children`; `update_node_with_attributes` fills `icon` and
`data`, so both are `Option`s. -/
inductive TreeNode where
  | mk (text : String) (icon : Option String) (data : Option NodeData)
      (children : List TreeNode)

def TreeNode.text : TreeNode → String
  | .mk t _ _ _ => t

def TreeNode.icon : TreeNode → Option String
  | .mk _ i _ _ => i

def TreeNode.data : TreeNode → Option NodeData
  | .mk _ _ d _ => d

def TreeNode.children : TreeNode → List TreeNode
  | .mk _ _ _ c => c

/-- Replace the children of a node, keeping text, icon and data: the shape of
every tree update the builder performs on a parent node. -/
def TreeNode.withChildren : TreeNode → List TreeNode → TreeNode
  | .mk t i d _, c => .mk t i d c

/-- The renderer's environment: the asset base URL (`self.assets_url`), the
archive display name (`self.metadata.name`, `self.metadata.ext`), and the two
external collaborators `sizeof_fmt` and the `os.path.isfile` probe used by
`icon_exists` (the fixed directory prefix of the probe is absorbed into it). -/
structure RenderCtx where
  assets_url : String
  metadata_name : String
  metadata_ext : String
  sizeof_fmt : Nat → String
  isFileAsset : String → Bool

/-- Python `str.lower()` on the ASCII extension strings the renderer handles:
lowercase each character. -/
def strToLower (s : String) : String := String.mk (s.data.map Char.toLower)

/-- `ZipRenderer.icon_exists`: probe the static image directory for
`file-ext-{ext.lower()}.png`. -/
def icon_exists (ctx : RenderCtx) (ext : String) : Bool :=
  ctx.isFileAsset ("file-ext-" ++ (strToLower ext ++ ".png"))

/-- The exceptions the tree builder can raise: `IndexError` from
`path_from_root[-1]` on an empty path, `AssertionError` from `assert is_folder`. -/
inductive BuildError where
  | indexError
  | assertionError
deriving DecidableEq

/-- Python `'%02d' % n` for a natural number. -/
def pad2 (n : Nat) : String :=
  if n < 10 then "0" ++ toString n else toString n

/-- Python `'%d-%02d-%02d %02d:%02d:%02d' % obj.date_time[:6]`: the year is
printed with `%d` (no padding), the five remaining fields with `%02d`. -/
def format_date : Nat × Nat × Nat × Nat × Nat × Nat → String
  | (y, mo, d, h, mi, s) =>
    toString y ++ ("-" ++ (pad2 mo ++ ("-" ++ (pad2 d ++ (" " ++
      (pad2 h ++ (":" ++ (pad2 mi ++ (":" ++ pad2 s)))))))))

/-- The characters after the last `/` of a path: the basename that
`os.path.splitext` works on (its `p.rfind('/')` step). -/
def basenameChars (l : List Char) : List Char :=
  ((l.reverse).takeWhile (fun c => c != '/')).reverse

/-- `os.path.splitext(p)[1].lstrip('.')`: the text after the last `.` of the
basename, provided some character of the basename before that dot is not a
dot; otherwise the empty string (so a dotfile such as `.DS_Store` has no
extension).  `lstrip('.')` removes the single leading dot `splitext` keeps. -/
def extAfterSplit (p : String) : String :=
  match ((basenameChars p.data).reverse).dropWhile (fun c => c != '.') with
  | [] => ""
  | _ :: pre =>
    if pre.any (fun c => c != '.') then
      String.mk ((((basenameChars p.data).reverse).takeWhile (fun c => c != '.')).reverse)
    else ""

/-- `ZipRenderer.update_node_with_attributes`: set the node's `icon` and
`data` (date and size strings) from the entry, leaving text and children
untouched. -/
def update_node_with_attributes (ctx : RenderCtx) (node : TreeNode)
    (obj : ArchiveEntry) (is_folder : Bool) : TreeNode :=
  let date := format_date obj.date_time
  let size := if obj.file_size == 0 then "" else ctx.sizeof_fmt obj.file_size
  let icon_path :=
    if is_folder then ctx.assets_url ++ "/img/folder.png"
    else
      let ext := strToLower (extAfterSplit obj.filename)
      if icon_exists ctx ext then
        ctx.assets_url ++ ("/img/file-ext-" ++ (ext ++ ".png"))
      else ctx.assets_url ++ "/img/file-ext-generic.png"
  match node with
  | .mk t _ _ c => .mk t (some icon_path) (some ⟨date, size⟩) c

/-- `ZipRenderer.find_node_among_siblings`: first sibling whose `text` equals
the segment, `None` otherwise. -/
def find_node_among_siblings (segment : String) : List TreeNode → Option TreeNode
  | [] => none
  | n :: ns =>
    if n.text == segment then some n else find_node_among_siblings segment ns

/-- In-place mutation of the node `find_node_among_siblings` returned,
rendered functionally: replace the first sibling whose `text` equals the
segment by its image under `f`. -/
def update_sibling (segment : String) (f : TreeNode → TreeNode) :
    List TreeNode → List TreeNode
  | [] => []
  | n :: ns =>
    if n.text == segment then f n :: ns else n :: update_sibling segment f ns

/-- Python `str.split('/')`: cut at every `/`, keeping empty pieces. -/
def splitSlash : List Char → List (List Char)
  | [] => [[]]
  | c :: rest =>
    match splitSlash rest with
    | [] => [[]]
    | s :: ss => if c == '/' then [] :: s :: ss else (c :: s) :: ss

/-- `[segment for segment in path_from_root.split('/') if segment]`. -/
def path_segments (p : String) : List String :=
  ((splitSlash p.data).map (fun l => String.mk l)).filter (fun s => s != "")

/-- Whether the last character of the path is `/` (`path_from_root[-1] == '/'`);
only consulted on nonempty paths. -/
def lastCharIsSlash (l : List Char) : Bool :=
  match l.getLast? with
  | some c => c == '/'
  | none => false

/-- A freshly created node: `{'text': segment, 'children': []}`. -/
def newNode (segment : String) : TreeNode := .mk segment none none []

/-- The per-entry segment walk of `obj_list_to_tree` (the inner `for` loop over
`enumerate(path_segments)`), as structural recursion on the remaining
segments, the current `parent` being threaded through. -/
def insert_segments (ctx : RenderCtx) (obj : ArchiveEntry) (is_folder : Bool) :
    List String → TreeNode → Except BuildError TreeNode
  | [], parent => .ok parent
  | [seg], parent =>
    match find_node_among_siblings seg parent.children with
    | some _ =>
      if is_folder then
        .ok (parent.withChildren (update_sibling seg
          (fun n => update_node_with_attributes ctx n obj is_folder)
          parent.children))
      else .error .assertionError
    | none =>
      .ok (parent.withChildren (parent.children ++
        [update_node_with_attributes ctx (newNode seg) obj is_folder]))
  | seg :: seg2 :: rest, parent =>
    match find_node_among_siblings seg parent.children with
    | some n =>
      match insert_segments ctx obj is_folder (seg2 :: rest) n with
      | .ok n2 =>
        .ok (parent.withChildren
          (update_sibling seg (fun _ => n2) parent.children))
      | .error e => .error e
    | none =>
      match insert_segments ctx obj is_folder (seg2 :: rest) (newNode seg) with
      | .ok n2 => .ok (parent.withChildren (parent.children ++ [n2]))
      | .error e => .error e

/-- The per-entry body of the outer loop of `obj_list_to_tree`: computing
`is_folder` from the path's last character raises `IndexError` on an empty
path; otherwise walk the path's segments from the given parent (the root). -/
def insert_obj (ctx : RenderCtx) (parent : TreeNode) (obj : ArchiveEntry) :
    Except BuildError TreeNode :=
  match obj.filename.data with
  | [] => .error .indexError
  | _ :: _ =>
    insert_segments ctx obj (lastCharIsSlash obj.filename.data)
      (path_segments obj.filename) parent

/-- The outer loop of `obj_list_to_tree`: fold the entries into the tree, a
raised exception aborting the whole build. -/
def insert_all (ctx : RenderCtx) : TreeNode → List ArchiveEntry →
    Except BuildError TreeNode
  | t, [] => .ok t
  | t, obj :: rest =>
    match insert_obj ctx t obj with
    | .ok t2 => insert_all ctx t2 rest
    | .error e => .error e

/-- The root node `obj_list_to_tree` starts from. -/
def rootOf (ctx : RenderCtx) : TreeNode :=
  .mk (ctx.metadata_name ++ ctx.metadata_ext)
    (some (ctx.assets_url ++ "/img/file-ext-zip.png")) none []

/-- `ZipRenderer.obj_list_to_tree`: build the tree and return the singleton
list holding the root. -/
def obj_list_to_tree (ctx : RenderCtx) (obj_list : List ArchiveEntry) :
    Except BuildError (List TreeNode) :=
  match insert_all ctx (rootOf ctx) obj_list with
  | .ok t => .ok [t]
  | .error e => .error e

/-- `ZipRenderer.sanitize_obj_list`: drop macOS junk entries, keeping order. -/
def sanitize_obj_list : List ArchiveEntry → List ArchiveEntry
  | [] => []
  | obj :: rest =>
    if obj.filename.startsWith "__MACOSX/" then sanitize_obj_list rest
    else if obj.filename == ".DS_Store" || obj.filename.endsWith "/.DS_Store" then
      sanitize_obj_list rest
    else obj :: sanitize_obj_list rest

/-- The sanitizer's removal condition, spelled as one predicate. -/
def isJunk (obj : ArchiveEntry) : Bool :=
  obj.filename.startsWith "__MACOSX/" || obj.filename == ".DS_Store" ||
    obj.filename.endsWith "/.DS_Store"

/-- A concrete context used to evaluate the builder on concrete entries: the
probe knows exactly the `txt` icon. -/
def testCtx : RenderCtx where
  assets_url := "http://assets"
  metadata_name := "archive"
  metadata_ext := ".zip"
  sizeof_fmt := fun n => toString n ++ " B"
  isFileAsset := fun s => s == "file-ext-txt.png"

/-- A single file entry three levels deep, with no explicit parent folders. -/
def xyzEntry : ArchiveEntry := ⟨"x/y/z.txt", (2019, 5, 6, 7, 8, 9), 2048⟩

/-- A file entry at the top level. -/
def fileAEntry : ArchiveEntry := ⟨"a", (2020, 1, 1, 0, 0, 0), 7⟩

/-- A folder entry at the same path as `fileAEntry`. -/
def folderAEntry : ArchiveEntry := ⟨"a/", (2021, 2, 3, 4, 5, 6), 0⟩

/-- An entry whose path is the empty string. -/
def emptyPathEntry : ArchiveEntry := ⟨"", (1980, 1, 1, 0, 0, 0), 0⟩

/-- An entry whose path is a single separator: it splits to zero segments. -/
def slashEntry : ArchiveEntry := ⟨"/", (1980, 1, 1, 0, 0, 0), 0⟩

/-- A dotfile entry: its final segment has a dot with nothing else before it. -/
def dotTxtEntry : ArchiveEntry := ⟨".txt", (2020, 1, 1, 0, 0, 0), 0⟩

/-- An entry whose year has fewer than four decimal digits. -/
def smallYearEntry : ArchiveEntry := ⟨"a", (207, 1, 2, 3, 4, 5), 0⟩

/-- Modelled from the words of the icon-resolution claim: the extension of a
final path segment is the lowercase text after the last dot, empty if the
segment has no dot. -/
def claimExtOfSegment (seg : String) : String :=
  if seg.data.contains '.' then
    strToLower (String.mk (((seg.data.reverse).takeWhile (fun c => c != '.')).reverse))
  else ""

/-- Left-pad a decimal string with zeros to the given width. -/
def padTo (w : Nat) (s : String) : String :=
  String.mk (List.replicate (w - s.data.length) '0') ++ s

/-- Modelled from the words of the date-format claim: every field of
`YYYY-MM-DD HH:MM:SS` zero-padded, the year to four digits. -/
def claimZeroPadDate : Nat × Nat × Nat × Nat × Nat × Nat → String
  | (y, mo, d, h, mi, s) =>
    padTo 4 (toString y) ++ ("-" ++ (pad2 mo ++ ("-" ++ (pad2 d ++ (" " ++
      (pad2 h ++ (":" ++ (pad2 mi ++ (":" ++ pad2 s)))))))))

/-- A bare node labeled `a`, as an already-present sibling. -/
def wChildNode : TreeNode := TreeNode.mk "a" none none []

/-- A parent node whose children already contain `wChildNode`. -/
def wParentNode : TreeNode := TreeNode.mk "p" none none [wChildNode]

/-- Sibling uniqueness, at every depth of a tree: the labels of any node's
children are pairwise distinct. -/
inductive LabelsUnique : TreeNode → Prop where
  | mk (t : String) (i : Option String) (d : Option NodeData) (c : List TreeNode)
      (hnodup : (c.map TreeNode.text).Nodup)
      (hrec : ∀ x ∈ c, LabelsUnique x) :
      LabelsUnique (.mk t i d c)

end ZipRender

namespace ZipRender

theorem withChildren_text (n : TreeNode) (c : List TreeNode) :
    (n.withChildren c).text = n.text := by
  cases n; rfl

theorem withChildren_icon (n : TreeNode) (c : List TreeNode) :
    (n.withChildren c).icon = n.icon := by
  cases n; rfl

theorem withChildren_data (n : TreeNode) (c : List TreeNode) :
    (n.withChildren c).data = n.data := by
  cases n; rfl

theorem withChildren_children (n : TreeNode) (c : List TreeNode) :
    (n.withChildren c).children = c := by
  cases n; rfl

theorem withChildren_self (n : TreeNode) : n.withChildren n.children = n := by
  cases n; rfl

theorem withChildren_withChildren (n : TreeNode) (c1 c2 : List TreeNode) :
    (n.withChildren c1).withChildren c2 = n.withChildren c2 := by
  cases n; rfl

theorem update_node_text (ctx : RenderCtx) (n : TreeNode) (obj : ArchiveEntry)
    (b : Bool) : (update_node_with_attributes ctx n obj b).text = n.text := by
  cases n; rfl

theorem update_node_children (ctx : RenderCtx) (n : TreeNode) (obj : ArchiveEntry)
    (b : Bool) : (update_node_with_attributes ctx n obj b).children = n.children := by
  cases n; rfl

theorem find_some (seg : String) (l : List TreeNode) (n : TreeNode)
    (h : find_node_among_siblings seg l = some n) : n ∈ l ∧ n.text = seg := by
  induction l with
  | nil => simp [find_node_among_siblings] at h
  | cons a as ih =>
    by_cases ha : a.text = seg
    · simp only [find_node_among_siblings, ha, beq_self_eq_true, if_true,
        Option.some.injEq] at h
      subst h
      exact ⟨List.mem_cons_self a as, ha⟩
    · simp only [find_node_among_siblings, beq_eq_false_iff_ne.mpr ha,
        Bool.false_eq_true, if_false] at h
      rcases ih h with ⟨hm, ht⟩
      exact ⟨List.mem_cons_of_mem a hm, ht⟩

theorem find_none (seg : String) (l : List TreeNode)
    (h : find_node_among_siblings seg l = none) : ∀ x ∈ l, x.text ≠ seg := by
  induction l with
  | nil => simp
  | cons a as ih =>
    by_cases ha : a.text = seg
    · simp [find_node_among_siblings, ha] at h
    · simp only [find_node_among_siblings, beq_eq_false_iff_ne.mpr ha,
        Bool.false_eq_true, if_false] at h
      intro x hx
      rcases List.mem_cons.mp hx with hx | hx
      · subst hx; exact ha
      · exact ih h x hx

theorem update_sibling_map_text (seg : String) (f : TreeNode → TreeNode)
    (l : List TreeNode) (n : TreeNode)
    (hfind : find_node_among_siblings seg l = some n) (hf : (f n).text = n.text) :
    (update_sibling seg f l).map TreeNode.text = l.map TreeNode.text := by
  induction l with
  | nil => simp [find_node_among_siblings] at hfind
  | cons a as ih =>
    by_cases ha : a.text = seg
    · simp only [find_node_among_siblings, ha, beq_self_eq_true, if_true,
        Option.some.injEq] at hfind
      subst hfind
      simp [update_sibling, ha, hf]
    · simp only [find_node_among_siblings, beq_eq_false_iff_ne.mpr ha,
        Bool.false_eq_true, if_false] at hfind
      simp [update_sibling, beq_eq_false_iff_ne.mpr ha, ih hfind]

theorem update_sibling_mem (seg : String) (f : TreeNode → TreeNode)
    (l : List TreeNode) (x : TreeNode) (hx : x ∈ update_sibling seg f l) :
    x ∈ l ∨ ∃ y ∈ l, x = f y := by
  induction l with
  | nil => simp [update_sibling] at hx
  | cons a as ih =>
    by_cases ha : a.text = seg
    · simp only [update_sibling, ha, beq_self_eq_true, if_true] at hx
      rcases List.mem_cons.mp hx with hx | hx
      · exact Or.inr ⟨a, List.mem_cons_self a as, hx⟩
      · exact Or.inl (List.mem_cons_of_mem a hx)
    · simp only [update_sibling, beq_eq_false_iff_ne.mpr ha,
        Bool.false_eq_true, if_false] at hx
      rcases List.mem_cons.mp hx with hx | hx
      · exact Or.inl (hx ▸ List.mem_cons_self a as)
      · rcases ih hx with hx | ⟨y, hy, hxy⟩
        · exact Or.inl (List.mem_cons_of_mem a hx)
        · exact Or.inr ⟨y, List.mem_cons_of_mem a hy, hxy⟩

/-- C3: `sanitize_obj_list` is a pure, order-preserving filter: it returns
the subsequence of its input, in input order, that keeps exactly the entries
whose path neither starts with `__MACOSX/`, nor equals `.DS_Store`, nor ends
with `/.DS_Store`. -/
theorem sanitize_is_exact_filter (l : List ArchiveEntry) :
    sanitize_obj_list l = l.filter (fun obj => !isJunk obj) ∧
    List.Sublist (sanitize_obj_list l) l := by
  have hf : ∀ m : List ArchiveEntry,
      sanitize_obj_list m = m.filter (fun obj => !isJunk obj) := by
    intro m
    induction m with
    | nil => rfl
    | cons a as ih =>
      simp only [sanitize_obj_list, List.filter]
      cases h1 : a.filename.startsWith "__MACOSX/" <;>
        cases h2 : a.filename == ".DS_Store" <;>
          cases h3 : a.filename.endsWith "/.DS_Store" <;>
            simp [isJunk, h1, h2, h3, ih]
  refine ⟨hf l, ?_⟩
  rw [hf l]
  exact List.filter_sublist l

theorem insert_segments_shape (ctx : RenderCtx) (obj : ArchiveEntry) (b : Bool)
    (segs : List String) (p t : TreeNode)
    (h : insert_segments ctx obj b segs p = .ok t) :
    ∃ c, t = p.withChildren c := by
  cases segs with
  | nil =>
    simp only [insert_segments, Except.ok.injEq] at h
    exact ⟨p.children, by rw [← h, withChildren_self]⟩
  | cons s1 rest =>
    cases rest with
    | nil =>
      simp only [insert_segments] at h
      split at h
      · split at h
        · exact ⟨_, (Except.ok.inj h).symm⟩
        · exact Except.noConfusion h
      · exact ⟨_, (Except.ok.inj h).symm⟩
    | cons s2 rest2 =>
      simp only [insert_segments] at h
      split at h
      · split at h
        · exact ⟨_, (Except.ok.inj h).symm⟩
        · exact Except.noConfusion h
      · split at h
        · exact ⟨_, (Except.ok.inj h).symm⟩
        · exact Except.noConfusion h

theorem insert_obj_shape (ctx : RenderCtx) (p : TreeNode) (obj : ArchiveEntry)
    (t : TreeNode) (h : insert_obj ctx p obj = .ok t) :
    ∃ c, t = p.withChildren c := by
  unfold insert_obj at h
  split at h
  · exact Except.noConfusion h
  · exact insert_segments_shape _ _ _ _ _ _ h

theorem insert_all_shape (ctx : RenderCtx) (l : List ArchiveEntry)
    (p t : TreeNode) (h : insert_all ctx p l = .ok t) :
    ∃ c, t = p.withChildren c := by
  induction l generalizing p with
  | nil =>
    simp only [insert_all, Except.ok.injEq] at h
    exact ⟨p.children, by rw [← h, withChildren_self]⟩
  | cons a as ih =>
    simp only [insert_all] at h
    rcases ho : insert_obj ctx p a with e | t2
    · rw [ho] at h
      exact Except.noConfusion h
    · rw [ho] at h
      rcases ih t2 h with ⟨c2, hc2⟩
      rcases insert_obj_shape ctx p a t2 ho with ⟨c1, hc1⟩
      exact ⟨c2, by rw [hc2, hc1, withChildren_withChildren]⟩

theorem obj_list_to_tree_ok (ctx : RenderCtx) (l : List ArchiveEntry)
    (res : List TreeNode) (h : obj_list_to_tree ctx l = .ok res) :
    ∃ t c, insert_all ctx (rootOf ctx) l = .ok t ∧ res = [t] ∧
      t = (rootOf ctx).withChildren c := by
  unfold obj_list_to_tree at h
  rcases ha : insert_all ctx (rootOf ctx) l with e | t
  · rw [ha] at h
    exact Except.noConfusion h
  · rw [ha] at h
    rcases insert_all_shape ctx l (rootOf ctx) t ha with ⟨c, hc⟩
    exact ⟨t, c, rfl, (Except.ok.inj h).symm, hc⟩

/-- C7 (amended): whenever the tree builder completes without raising an
exception, it returns exactly one root node (never zero, never several), and
that root is labeled with the archive's name and extension. -/
theorem single_root_when_ok (ctx : RenderCtx) (l : List ArchiveEntry)
    (res : List TreeNode) (h : obj_list_to_tree ctx l = .ok res) :
    ∃ r, res = [r] ∧ r.text = ctx.metadata_name ++ ctx.metadata_ext := by
  rcases obj_list_to_tree_ok ctx l res h with ⟨t, c, _, hres, hc⟩
  refine ⟨t, hres, ?_⟩
  rw [hc, withChildren_text]
  rfl

/-- C7 witness: the amended single-root theorem applied to the empty entry
list in the concrete context. -/
theorem single_root_when_ok_on_empty_list :
    obj_list_to_tree testCtx [] = Except.ok [rootOf testCtx] ∧
    ∃ r, [rootOf testCtx] = [r] ∧
      r.text = testCtx.metadata_name ++ testCtx.metadata_ext :=
  ⟨rfl, single_root_when_ok testCtx [] [rootOf testCtx] rfl⟩

/-- C7 counterexample: for the entry list `["a", "a"]` (the same file path
twice) the build raises `AssertionError` — `assert is_folder` fails when the
second entry finds the node the first created — so the builder does not
return a root node for every entry list. -/
theorem duplicate_file_entries_return_no_root :
    obj_list_to_tree testCtx [fileAEntry, fileAEntry] =
      Except.error BuildError.assertionError := rfl

/-- C4 counterexample: an entry whose path is the empty string does not get
skipped silently — `path_from_root[-1]` raises `IndexError` before the
segment split, so the build fails instead of returning the tree it returns
for the entry's absence. -/
theorem empty_path_entry_fails :
    obj_list_to_tree testCtx [emptyPathEntry] = Except.error BuildError.indexError ∧
    obj_list_to_tree testCtx [] = Except.ok [rootOf testCtx] ∧
    (Except.error BuildError.indexError : Except BuildError (List TreeNode)) ≠
      Except.ok [rootOf testCtx] :=
  ⟨rfl, rfl, fun h => Except.noConfusion h⟩

theorem insert_obj_segments_nil (ctx : RenderCtx) (p : TreeNode)
    (obj : ArchiveEntry) (hne : obj.filename ≠ "")
    (hseg : path_segments obj.filename = []) :
    insert_obj ctx p obj = .ok p := by
  unfold insert_obj
  rcases hd : obj.filename.data with _ | ⟨c, cs⟩
  · exact absurd (String.ext hd) hne
  · simp only [hd]
    rw [hseg]
    rfl

theorem insert_all_skip (ctx : RenderCtx) (obj : ArchiveEntry)
    (hne : obj.filename ≠ "") (hseg : path_segments obj.filename = []) :
    ∀ l1 l2 p, insert_all ctx p (l1 ++ obj :: l2) = insert_all ctx p (l1 ++ l2) := by
  intro l1
  induction l1 with
  | nil =>
    intro l2 p
    simp only [List.nil_append, insert_all,
      insert_obj_segments_nil ctx p obj hne hseg]
  | cons a as ih =>
    intro l2 p
    simp only [List.cons_append, insert_all]
    rcases ho : insert_obj ctx p a with e | t2
    · rfl
    · exact ih l2 t2

/-- C4 (amended): an entry whose path splits to zero segments is skipped
silently, leaving the build exactly as if the entry were absent — provided
the path is nonempty (such as `/` or `//`); an entry with the empty path
instead raises `IndexError` (see the counterexample). -/
theorem zero_segment_entry_skipped (ctx : RenderCtx) (l1 l2 : List ArchiveEntry)
    (obj : ArchiveEntry) (hne : obj.filename ≠ "")
    (hseg : path_segments obj.filename = []) :
    obj_list_to_tree ctx (l1 ++ obj :: l2) = obj_list_to_tree ctx (l1 ++ l2) := by
  unfold obj_list_to_tree
  rw [insert_all_skip ctx obj hne hseg l1 l2 (rootOf ctx)]

/-- C4 witness: the amended skip theorem applied to the `/` entry in the
concrete context. -/
theorem zero_segment_entry_skipped_on_slash :
    slashEntry.filename ≠ "" ∧ path_segments slashEntry.filename = [] ∧
    obj_list_to_tree testCtx ([] ++ slashEntry :: []) =
      obj_list_to_tree testCtx ([] ++ []) :=
  ⟨by decide, by decide,
    zero_segment_entry_skipped testCtx [] [] slashEntry (by decide) (by decide)⟩

/-- C1: for the single entry list `["x/y/z.txt"]`, with no explicit `x/` or
`x/y/` entries, the builder produces a root whose only child is the folder
node `x`, whose only child is the folder node `y`, whose only child is the
leaf `z.txt`; the implicit intermediate nodes `x` and `y` carry no icon and
no metadata, while `z.txt` carries an icon and date/size metadata. -/
theorem implicit_intermediate_folders (ctx : RenderCtx) :
    obj_list_to_tree ctx [xyzEntry] =
      .ok [TreeNode.mk (ctx.metadata_name ++ ctx.metadata_ext)
        (some (ctx.assets_url ++ "/img/file-ext-zip.png")) none
        [TreeNode.mk "x" none none
          [TreeNode.mk "y" none none
            [TreeNode.mk "z.txt"
              (some (if icon_exists ctx "txt" then
                  ctx.assets_url ++ "/img/file-ext-txt.png"
                else ctx.assets_url ++ "/img/file-ext-generic.png"))
              (some ⟨"2019-05-06 07:08:09", ctx.sizeof_fmt 2048⟩) []]]]] := rfl

/-- C10: for the entry list `["a", "a/"]` — a path first terminated by a file
entry, later by a folder entry — the build does not fail and creates no
second node: `assert is_folder` only checks the current entry's folder flag,
so the existing file node is silently converted, its icon overwritten with
the folder icon and its metadata with the folder entry's date and (empty,
size-zero) size text. -/
theorem file_then_folder_converts_node (ctx : RenderCtx) :
    obj_list_to_tree ctx [fileAEntry, folderAEntry] =
      .ok [TreeNode.mk (ctx.metadata_name ++ ctx.metadata_ext)
        (some (ctx.assets_url ++ "/img/file-ext-zip.png")) none
        [TreeNode.mk "a" (some (ctx.assets_url ++ "/img/folder.png"))
          (some ⟨"2021-02-03 04:05:06", ""⟩) []]] := rfl

/-- C9 counterexample: in the tree built for `["x/y/z.txt"]` the root has a
child (the implicit folder `x`) that carries no metadata, so metadata is not
present on every node except the synthetic root. -/
theorem intermediate_node_lacks_metadata :
    ∃ root, obj_list_to_tree testCtx [xyzEntry] = Except.ok [root] ∧
      ∃ child ∈ root.children, child.data = none := by
  exact ⟨_, rfl, _, List.mem_cons_self _ _, rfl⟩

/-- C9 (amended): the synthetic root never carries metadata (it keeps only
its label, the fixed zip icon and its children); of the other nodes, those at
which an entry's path terminates carry date/size metadata while implicit
intermediate folder nodes carry none — witnessed on `["x/y/z.txt"]`, where
`x` and `y` have no metadata and `z.txt` has it. -/
theorem metadata_absent_from_root_and_implicit_folders :
    (∀ ctx : RenderCtx, ∀ l res, obj_list_to_tree ctx l = Except.ok res →
      ∀ t ∈ res, t.data = none ∧
        t.icon = some (ctx.assets_url ++ "/img/file-ext-zip.png")) ∧
    (∃ root x y z, obj_list_to_tree testCtx [xyzEntry] = Except.ok [root] ∧
      root.children = [x] ∧ x.data = none ∧ x.children = [y] ∧ y.data = none ∧
      y.children = [z] ∧ z.data = some ⟨"2019-05-06 07:08:09", "2048 B"⟩ ∧
      z.children = []) := by
  constructor
  · intro ctx l res h t ht
    rcases obj_list_to_tree_ok ctx l res h with ⟨t0, c, _, hres, hc⟩
    subst hres
    rw [List.mem_singleton] at ht
    subst ht
    rw [hc]
    constructor
    · rw [withChildren_data]
      rfl
    · rw [withChildren_icon]
      rfl
  · exact ⟨_, _, _, _, rfl, rfl, rfl, rfl, rfl, rfl, rfl, rfl⟩

/-- C2: when the final segment of an entry's path matches an existing sibling
of the current parent, the build fails with the `assert is_folder` invariant
violation if the entry is not a folder; otherwise it attaches the entry's
metadata to that existing node in place — the sibling labels (and so the
sibling count) are unchanged, no duplicate is created. -/
theorem terminal_segment_found (ctx : RenderCtx) (obj : ArchiveEntry)
    (is_folder : Bool) (parent : TreeNode) (seg : String) (n : TreeNode)
    (hfind : find_node_among_siblings seg parent.children = some n) :
    (is_folder = false →
      insert_segments ctx obj is_folder [seg] parent =
        Except.error BuildError.assertionError) ∧
    (is_folder = true →
      insert_segments ctx obj is_folder [seg] parent =
        Except.ok (parent.withChildren (update_sibling seg
          (fun m => update_node_with_attributes ctx m obj true) parent.children)) ∧
      (update_sibling seg (fun m => update_node_with_attributes ctx m obj true)
        parent.children).map TreeNode.text = parent.children.map TreeNode.text) := by
  constructor
  · intro hf
    subst hf
    simp [insert_segments, hfind]
  · intro hf
    subst hf
    refine ⟨by simp [insert_segments, hfind], ?_⟩
    exact update_sibling_map_text seg _ parent.children n hfind
      (update_node_text ctx n obj true)

/-- C2 witness: the terminal-match theorem applied to a parent that already
has a child labeled `a` and a file entry for the path `a`. -/
theorem terminal_segment_found_on_file_entry :
    find_node_among_siblings "a" wParentNode.children = some wChildNode ∧
    ((false = false →
      insert_segments testCtx fileAEntry false ["a"] wParentNode =
        Except.error BuildError.assertionError) ∧
    (false = true →
      insert_segments testCtx fileAEntry false ["a"] wParentNode =
        Except.ok (wParentNode.withChildren (update_sibling "a"
          (fun m => update_node_with_attributes testCtx m fileAEntry true)
          wParentNode.children)) ∧
      (update_sibling "a" (fun m => update_node_with_attributes testCtx m fileAEntry true)
        wParentNode.children).map TreeNode.text =
          wParentNode.children.map TreeNode.text)) :=
  ⟨rfl, terminal_segment_found testCtx fileAEntry false wParentNode "a" wChildNode rfl⟩

/-- C8 counterexample: the year field is rendered with `%d`, not zero-padded
to four digits, so for a year below 1000 the date text is not of the claimed
zero-padded `YYYY-MM-DD HH:MM:SS` shape. -/
theorem year_not_zero_padded :
    (update_node_with_attributes testCtx (newNode "a") smallYearEntry false).data =
      some ⟨"207-01-02 03:04:05", ""⟩ ∧
    claimZeroPadDate (207, 1, 2, 3, 4, 5) = "0207-01-02 03:04:05" ∧
    ("207-01-02 03:04:05" : String) ≠ "0207-01-02 03:04:05" :=
  ⟨rfl, rfl, by decide⟩

/-- C8 (amended): metadata attachment sets `dateText` to
`%d-%02d-%02d %02d:%02d:%02d` of the timestamp tuple — the five non-year
fields zero-padded to two digits, the year printed without padding, which
agrees with the zero-padded `YYYY-…` form exactly when the year's decimal
representation has at least four digits (as every real zip year does, e.g.
1980) — and sets `sizeText` to the empty string exactly when `sizeBytes` is
zero, and to the external size-formatter's output otherwise. -/
theorem date_and_size_formatting :
    (∀ ctx : RenderCtx, ∀ node obj is_folder,
      (update_node_with_attributes ctx node obj is_folder).data =
        some ⟨format_date obj.date_time,
          if obj.file_size == 0 then "" else ctx.sizeof_fmt obj.file_size⟩) ∧
    (∀ y mo d h mi s : Nat, 4 ≤ (toString y).data.length →
      format_date (y, mo, d, h, mi, s) = claimZeroPadDate (y, mo, d, h, mi, s)) ∧
    format_date (1980, 1, 2, 3, 4, 5) = claimZeroPadDate (1980, 1, 2, 3, 4, 5) := by
  have hnil : ∀ s : String, String.mk ([] : List Char) ++ s = s := by
    intro s
    cases s
    rfl
  refine ⟨?_, ?_, rfl⟩
  · intro ctx node obj is_folder
    cases node
    rfl
  · intro y mo d h mi s hy
    simp only [format_date, claimZeroPadDate, padTo, Nat.sub_eq_zero_of_le hy,
      List.replicate_zero]
    rw [hnil]

/-- C6 counterexample: for a file entry `.txt` — a dotfile whose final segment
has text after its last dot — the claim derives extension `txt`, which the
probe knows, so the claim resolves the per-extension icon path; the code
instead derives an empty extension (`os.path.splitext` ignores leading dots)
and resolves the generic icon path, a different string. -/
theorem dotfile_icon_not_per_extension :
    claimExtOfSegment ".txt" = "txt" ∧
    icon_exists testCtx "txt" = true ∧
    (update_node_with_attributes testCtx (newNode ".txt") dotTxtEntry false).icon =
      some "http://assets/img/file-ext-generic.png" ∧
    ("http://assets/img/file-ext-generic.png" : String) ≠
      "http://assets/img/file-ext-txt.png" :=
  ⟨rfl, rfl, rfl, by decide⟩

theorem dropWhile_ne_dot (l : List Char) (c : Char) (pre : List Char)
    (h : l.dropWhile (fun x => x != '.') = c :: pre) : c = '.' ∧ '.' ∈ l := by
  induction l with
  | nil => simp [List.dropWhile] at h
  | cons a as ih =>
    by_cases ha : a = '.'
    · subst ha
      rw [List.dropWhile_cons_of_neg (by simp)] at h
      injection h with h1 h2
      exact ⟨h1.symm, List.mem_cons_self _ _⟩
    · rw [List.dropWhile_cons_of_pos (by simp [ha])] at h
      rcases ih h with ⟨hc, hm⟩
      exact ⟨hc, List.mem_cons_of_mem a hm⟩

theorem basenameChars_of_no_slash (l : List Char) (h : '/' ∉ l) :
    basenameChars l = l := by
  have ht : (l.reverse).takeWhile (fun c => c != '/') = l.reverse := by
    rw [List.takeWhile_eq_self_iff]
    intro x hx
    have hx' : x ∈ l := List.mem_reverse.mp hx
    simp only [bne_iff_ne, ne_eq]
    intro he
    exact h (he ▸ hx')
  unfold basenameChars
  rw [ht, List.reverse_reverse]

/-- C6 (amended): metadata attachment resolves `iconPath` as follows — for a
folder, the fixed folder icon path; for a file, the per-extension path
exactly when `iconExists(ext)` holds and the generic file path otherwise,
where `ext` is the lowercase text after the last `.` of the final path
segment (the text after the last `/`), except that `ext` is empty when the
segment has no dot or when every character before its last dot is itself a
dot (dotfiles); `iconExists` lowercases its argument, hence is
case-insensitive on the extension. -/
theorem icon_resolution :
    (∀ ctx : RenderCtx, ∀ node obj,
      (update_node_with_attributes ctx node obj true).icon =
        some (ctx.assets_url ++ "/img/folder.png")) ∧
    (∀ ctx : RenderCtx, ∀ node obj,
      (update_node_with_attributes ctx node obj false).icon =
        some (if icon_exists ctx (strToLower (extAfterSplit obj.filename)) then
          ctx.assets_url ++ ("/img/file-ext-" ++
            (strToLower (extAfterSplit obj.filename) ++ ".png"))
        else ctx.assets_url ++ "/img/file-ext-generic.png")) ∧
    (∀ seg : String, '/' ∉ seg.data → extAfterSplit seg ≠ "" →
      strToLower (extAfterSplit seg) = claimExtOfSegment seg) ∧
    (∀ p : String, '.' ∉ p.data → extAfterSplit p = "") ∧
    (∀ ctx : RenderCtx, ∀ e1 e2 : String, strToLower e1 = strToLower e2 →
      icon_exists ctx e1 = icon_exists ctx e2) := by
  refine ⟨?_, ?_, ?_, ?_, ?_⟩
  · intro ctx node obj
    cases node
    rfl
  · intro ctx node obj
    cases node
    rfl
  · intro seg hs hne
    unfold extAfterSplit at hne ⊢
    rw [basenameChars_of_no_slash seg.data hs] at hne ⊢
    rcases hdw : (seg.data.reverse).dropWhile (fun c => c != '.') with _ | ⟨c, pre⟩
    · rw [hdw] at hne
      exact absurd rfl hne
    · rw [hdw] at hne
      rcases dropWhile_ne_dot seg.data.reverse c pre hdw with ⟨-, hdot⟩
      have hcont : seg.data.contains '.' = true := by
        have hm : '.' ∈ seg.data := List.mem_reverse.mp hdot
        simpa [List.contains] using hm
      by_cases hany : pre.any (fun x => x != '.') = true
      · simp only [hany, if_true]
        unfold claimExtOfSegment
        rw [hcont]
        rfl
      · have hz : (if pre.any (fun x => x != '.') = true then
            String.mk (((seg.data.reverse).takeWhile (fun c => c != '.')).reverse)
          else "") = "" := by
          rw [if_neg hany]
        exact absurd hz hne
  · intro p hd
    unfold extAfterSplit
    have hdw : ((basenameChars p.data).reverse).dropWhile (fun c => c != '.') = [] := by
      rw [List.dropWhile_eq_nil_iff]
      intro x hx
      have hx1 : x ∈ basenameChars p.data := List.mem_reverse.mp hx
      have hx2 : x ∈ p.data := by
        unfold basenameChars at hx1
        have hx3 : x ∈ (p.data.reverse).takeWhile (fun c => c != '/') :=
          List.mem_reverse.mp hx1
        exact List.mem_reverse.mp ((List.takeWhile_sublist _).subset hx3)
      simp only [bne_iff_ne, ne_eq]
      intro he
      exact hd (he ▸ hx2)
    rw [hdw]
  · intro ctx e1 e2 h
    unfold icon_exists
    rw [h]

theorem labelsUnique_nodup (n : TreeNode) (h : LabelsUnique n) :
    (n.children.map TreeNode.text).Nodup := by
  cases h with
  | mk t i d c hnodup hrec => exact hnodup

theorem labelsUnique_children (n : TreeNode) (h : LabelsUnique n) :
    ∀ x ∈ n.children, LabelsUnique x := by
  cases h with
  | mk t i d c hnodup hrec => exact hrec

theorem labelsUnique_mk (n : TreeNode)
    (hnodup : (n.children.map TreeNode.text).Nodup)
    (hrec : ∀ x ∈ n.children, LabelsUnique x) : LabelsUnique n := by
  cases n
  exact .mk _ _ _ _ hnodup hrec

theorem newNode_unique (seg : String) : LabelsUnique (newNode seg) :=
  .mk _ _ _ _ (by simp) (by simp)

theorem rootOf_unique (ctx : RenderCtx) : LabelsUnique (rootOf ctx) :=
  .mk _ _ _ _ (by simp) (by simp)

theorem update_attrs_unique (ctx : RenderCtx) (n : TreeNode) (obj : ArchiveEntry)
    (b : Bool) (h : LabelsUnique n) :
    LabelsUnique (update_node_with_attributes ctx n obj b) := by
  cases h with
  | mk t i d c hnodup hrec => exact .mk _ _ _ _ hnodup hrec

theorem insert_segments_text (ctx : RenderCtx) (obj : ArchiveEntry) (b : Bool)
    (segs : List String) (p t : TreeNode)
    (h : insert_segments ctx obj b segs p = .ok t) : t.text = p.text := by
  rcases insert_segments_shape ctx obj b segs p t h with ⟨c, hc⟩
  rw [hc, withChildren_text]

theorem insert_segments_unique (ctx : RenderCtx) (obj : ArchiveEntry) (b : Bool) :
    ∀ segs : List String, ∀ p t : TreeNode,
      insert_segments ctx obj b segs p = .ok t → LabelsUnique p →
        LabelsUnique t := by
  intro segs
  induction segs with
  | nil =>
    intro p t h hp
    simp only [insert_segments, Except.ok.injEq] at h
    exact h ▸ hp
  | cons s1 rest ih =>
    cases rest with
    | nil =>
      intro p t h hp
      simp only [insert_segments] at h
      rcases hf : find_node_among_siblings s1 p.children with _ | n
      · rw [hf] at h
        have ht : t = p.withChildren (p.children ++
            [update_node_with_attributes ctx (newNode s1) obj b]) :=
          (Except.ok.inj h).symm
        subst ht
        have hseg : (update_node_with_attributes ctx (newNode s1) obj b).text = s1 := by
          rw [update_node_text]
          rfl
        apply labelsUnique_mk
        · rw [withChildren_children, List.map_append]
          simp only [List.map_cons, List.map_nil, hseg]
          rw [List.nodup_append]
          refine ⟨labelsUnique_nodup p hp, by simp, ?_⟩
          intro a ha hb
          rw [List.mem_singleton] at hb
          rcases List.mem_map.mp ha with ⟨y, hy, hyt⟩
          exact find_none s1 p.children hf y hy (hyt.trans hb)
        · intro x hx
          rw [withChildren_children] at hx
          rcases List.mem_append.mp hx with hx | hx
          · exact labelsUnique_children p hp x hx
          · rw [List.mem_singleton] at hx
            subst hx
            exact update_attrs_unique ctx (newNode s1) obj b (newNode_unique s1)
      · rw [hf] at h
        cases b
        · simp at h
        · simp only [if_true] at h
          have ht : t = p.withChildren (update_sibling s1
              (fun m => update_node_with_attributes ctx m obj true) p.children) :=
            (Except.ok.inj h).symm
          subst ht
          apply labelsUnique_mk
          · rw [withChildren_children, update_sibling_map_text s1 _ p.children n hf
              (update_node_text ctx n obj true)]
            exact labelsUnique_nodup p hp
          · intro x hx
            rw [withChildren_children] at hx
            rcases update_sibling_mem s1 _ p.children x hx with hx | ⟨y, hy, rfl⟩
            · exact labelsUnique_children p hp x hx
            · exact update_attrs_unique ctx y obj true
                (labelsUnique_children p hp y hy)
    | cons s2 rest2 =>
      intro p t h hp
      simp only [insert_segments] at h
      rcases hf : find_node_among_siblings s1 p.children with _ | n
      · rw [hf] at h
        rcases hrec : insert_segments ctx obj b (s2 :: rest2) (newNode s1) with e | n2
        · rw [hrec] at h
          exact Except.noConfusion h
        · rw [hrec] at h
          have ht : t = p.withChildren (p.children ++ [n2]) := (Except.ok.inj h).symm
          subst ht
          have hn2u : LabelsUnique n2 := ih (newNode s1) n2 hrec (newNode_unique s1)
          have hn2t : n2.text = s1 := by
            rw [insert_segments_text ctx obj b (s2 :: rest2) (newNode s1) n2 hrec]
            rfl
          apply labelsUnique_mk
          · rw [withChildren_children, List.map_append]
            simp only [List.map_cons, List.map_nil, hn2t]
            rw [List.nodup_append]
            refine ⟨labelsUnique_nodup p hp, by simp, ?_⟩
            intro a ha hb
            rw [List.mem_singleton] at hb
            rcases List.mem_map.mp ha with ⟨y, hy, hyt⟩
            exact find_none s1 p.children hf y hy (hyt.trans hb)
          · intro x hx
            rw [withChildren_children] at hx
            rcases List.mem_append.mp hx with hx | hx
            · exact labelsUnique_children p hp x hx
            · rw [List.mem_singleton] at hx
              subst hx
              exact hn2u
      · simp only [hf] at h
        rcases hrec : insert_segments ctx obj b (s2 :: rest2) n with e | n2
        · rw [hrec] at h
          exact Except.noConfusion h
        · rw [hrec] at h
          have ht : t = p.withChildren (update_sibling s1 (fun _ => n2) p.children) :=
            (Except.ok.inj h).symm
          subst ht
          rcases find_some s1 p.children n hf with ⟨hnm, -⟩
          have hn2u : LabelsUnique n2 :=
            ih n n2 hrec (labelsUnique_children p hp n hnm)
          have hn2t : n2.text = n.text :=
            insert_segments_text ctx obj b (s2 :: rest2) n n2 hrec
          apply labelsUnique_mk
          · rw [withChildren_children,
              update_sibling_map_text s1 _ p.children n hf hn2t]
            exact labelsUnique_nodup p hp
          · intro x hx
            rw [withChildren_children] at hx
            rcases update_sibling_mem s1 _ p.children x hx with hx | ⟨y, hy, rfl⟩
            · exact labelsUnique_children p hp x hx
            · exact hn2u

theorem insert_obj_unique (ctx : RenderCtx) (p : TreeNode) (obj : ArchiveEntry)
    (t : TreeNode) (h : insert_obj ctx p obj = .ok t) (hp : LabelsUnique p) :
    LabelsUnique t := by
  unfold insert_obj at h
  rcases hd : obj.filename.data with _ | ⟨c, cs⟩
  · rw [hd] at h
    exact Except.noConfusion h
  · rw [hd] at h
    exact insert_segments_unique ctx obj _ _ p t h hp

theorem insert_all_unique (ctx : RenderCtx) (l : List ArchiveEntry)
    (p t : TreeNode) (h : insert_all ctx p l = .ok t) (hp : LabelsUnique p) :
    LabelsUnique t := by
  induction l generalizing p with
  | nil =>
    simp only [insert_all, Except.ok.injEq] at h
    exact h ▸ hp
  | cons a as ih =>
    simp only [insert_all] at h
    rcases ho : insert_obj ctx p a with e | t2
    · rw [ho] at h
      exact Except.noConfusion h
    · rw [ho] at h
      exact ih t2 h (insert_obj_unique ctx p a t2 ho hp)

/-- C5: in every tree the builder returns, a label appears at most once among
the children of any node (repeated segments refer to the same node, never a
duplicate sibling); in particular, for the duplicate folder entries
`["a/", "a/"]` the root has exactly one child, labeled `a`. -/
theorem sibling_labels_unique :
    (∀ ctx : RenderCtx, ∀ l res, obj_list_to_tree ctx l = Except.ok res →
      ∀ t ∈ res, LabelsUnique t) ∧
    (∃ root, obj_list_to_tree testCtx [folderAEntry, folderAEntry] =
        Except.ok [root] ∧
      root.children.map TreeNode.text = ["a"]) := by
  constructor
  · intro ctx l res h t ht
    rcases obj_list_to_tree_ok ctx l res h with ⟨t0, c, hall, hres, -⟩
    subst hres
    rw [List.mem_singleton] at ht
    subst ht
    exact insert_all_unique ctx l (rootOf ctx) t hall (rootOf_unique ctx)
  · exact ⟨_, rfl, rfl⟩

end ZipRender
